import Mathlib

/-
Verification of the permission-predicate core of `core-entity`
(src/src/lib/permissions.ts) and its auth-retry constants.

JavaScript strings are modelled as `List Char`; permission arrays as
`List PermissionCode`.  `Array.prototype.includes` with string elements
is structural equality, modelled by `List.contains`.
-/

namespace CoreEntity

/-- A JavaScript string holding a permission code, as its character list. -/
abbrev PermissionCode := List Char

/-- Embeds `hasPermission` (permissions.ts:14-19):
`userPermissions.includes(requiredPermission)`. -/
def hasPermission (userPermissions : List PermissionCode)
    (requiredPermission : PermissionCode) : Bool :=
  userPermissions.contains requiredPermission

/-- Embeds `hasAnyPermission` (permissions.ts:27-34):
`requiredPermissions.some((p) => userPermissions.includes(p))`. -/
def hasAnyPermission (userPermissions requiredPermissions : List PermissionCode) : Bool :=
  requiredPermissions.any (fun permission => userPermissions.contains permission)

/-- Embeds `hasAllPermissions` (permissions.ts:42-49):
`requiredPermissions.every((p) => userPermissions.includes(p))`. -/
def hasAllPermissions (userPermissions requiredPermissions : List PermissionCode) : Bool :=
  requiredPermissions.all (fun permission => userPermissions.contains permission)

/-- JavaScript line terminators: `\n`, `\r`, U+2028, U+2029.  A JS regex `.`
(without the `s` flag, as in permissions.ts) matches any character EXCEPT
these. -/
def isLineTerminator (c : Char) : Bool :=
  c = '\n' || c = '\r' || c = Char.ofNat 0x2028 || c = Char.ofNat 0x2029

/-- Tokens of the regex fragment that `hasPermissionPattern` generates from a
pattern by `pattern.replace(/\*/g, '.*')`: a character of the pattern is kept
(a `.` keeps its regex meaning of any-non-line-terminator because the code
does NOT escape it), and every `*` becomes the unit `.*`.  Patterns holding
other regex metacharacters (`+ ? ( ) [ ] \ | ^ $ { }`) fall outside this
fragment and are not modelled. -/
inductive RTok
  | lit (c : Char)
  | anyChar
  | anyStar
deriving DecidableEq

/-- Compilation of one pattern character, mirroring
`pattern.replace(/\*/g, '.*')` followed by JS regex parsing: `*` (always the
result of the substitution) is the `.*` unit, `.` is the unescaped
single-character wildcard, anything else is literal. -/
def compileChar (c : Char) : RTok :=
  if c = '*' then RTok.anyStar
  else if c = '.' then RTok.anyChar
  else RTok.lit c

/-- Anchored matching of the compiled token list against a string, the
semantics of `new RegExp('^' + regexPattern + '$').test(permission)`:
`.*` consumes any (possibly empty) run of non-line-terminator characters. -/
def rmatch : List RTok → List Char → Bool
  | [], s => s.isEmpty
  | RTok.lit c :: ts, s =>
      match s with
      | [] => false
      | x :: xs => x == c && rmatch ts xs
  | RTok.anyChar :: ts, s =>
      match s with
      | [] => false
      | x :: xs => !isLineTerminator x && rmatch ts xs
  | RTok.anyStar :: ts, s =>
      (List.range (s.length + 1)).any fun i =>
        (s.take i).all (fun c => !isLineTerminator c) && rmatch ts (s.drop i)

/-- Embeds `hasPermissionPattern` (permissions.ts:58-69): if the pattern
contains `*`, compile it (unescaped) to an anchored regex and test every held
permission; otherwise fall back to `includes`. -/
def hasPermissionPattern (userPermissions : List PermissionCode)
    (pattern : PermissionCode) : Bool :=
  if pattern.contains '*' then
    userPermissions.any (fun permission => rmatch (pattern.map compileChar) permission)
  else
    userPermissions.contains pattern

/-- Embeds `hasRoleLevel` (permissions.ts:78-83): `userLevel >= requiredLevel`. -/
def hasRoleLevel (userLevel requiredLevel : Int) : Bool :=
  decide (userLevel ≥ requiredLevel)

/-- Embeds `permissionCode.split(':')` for the single-character separator:
splits at every colon, keeping empty segments; the empty string yields
`[[]]`, exactly as in JavaScript. -/
def splitColon : List Char → List (List Char)
  | [] => [[]]
  | c :: cs =>
      if c = ':' then [] :: splitColon cs
      else
        match splitColon cs with
        | [] => [[c]]
        | s :: ss => (c :: s) :: ss

/-- Embeds `parsePermission` (permissions.ts:105-114): split on `:`;
exactly two parts give `{resource, action}`, anything else gives null. -/
def parsePermission (permissionCode : PermissionCode) :
    Option (PermissionCode × PermissionCode) :=
  match splitColon permissionCode with
  | [resource, action] => some (resource, action)
  | _ => none

/-- Embeds `MAX_AUTH_RETRIES` from the constants module. -/
def MAX_AUTH_RETRIES : Nat := 3

/-- Embeds `AUTH_RETRY_BASE_DELAY_MS` from the constants module. -/
def AUTH_RETRY_BASE_DELAY_MS : Nat := 1000

/-- Splitting on colons yields one more segment than there are colons. -/
theorem splitColon_length (cs : List Char) :
    (splitColon cs).length = cs.count ':' + 1 := by
  induction cs with
  | nil => rfl
  | cons c cs ih =>
    by_cases hc : c = ':'
    · subst hc
      simp [splitColon, List.count_cons, ih]
    · rcases hs : splitColon cs with _ | ⟨s, ss⟩
      · rw [hs] at ih
        simp at ih
      · rw [hs] at ih
        simp only [splitColon, hc, if_false, hs, List.length_cons, List.count_cons]
        simp only [List.length_cons] at ih
        have hbeq : (':' == c) = false := by
          simp [hc]
          intro h
          exact hc h.symm
        simp [hbeq, ih, hc]

/-- Claim C2 counterexample: `"a:"` has an empty action segment, yet
`parsePermission` succeeds on it instead of returning the none sentinel. -/
theorem parsePermission_empty_action_parses :
    parsePermission "a:".toList ≠ none := by
  decide

/-- Claim C2 amended: `parsePermission` returns the none sentinel exactly
when the code does not contain exactly one colon; segment emptiness is not
checked. -/
theorem parsePermission_none_iff_colon_count (code : PermissionCode) :
    parsePermission code = none ↔ code.count ':' ≠ 1 := by
  have h := splitColon_length code
  unfold parsePermission
  rcases hs : splitColon code with _ | ⟨a, _ | ⟨b, _ | ⟨c, l⟩⟩⟩ <;>
    rw [hs] at h <;> simp only [List.length_cons, List.length_nil] at h <;>
    simp <;> omega

/-- Claim C3: `parsePermission "users:create"` yields resource `users`
and action `create`; `parsePermission "invalid"` and
`parsePermission "a:b:c"` both yield the none sentinel. -/
theorem parsePermission_examples :
    parsePermission "users:create".toList =
      some ("users".toList, "create".toList) ∧
    parsePermission "invalid".toList = none ∧
    parsePermission "a:b:c".toList = none := by
  decide

/-- Claim C9: the default auth retry configuration is 3 total attempts
with a 1000 millisecond base delay. -/
theorem auth_retry_defaults :
    MAX_AUTH_RETRIES = 3 ∧ AUTH_RETRY_BASE_DELAY_MS = 1000 :=
  ⟨rfl, rfl⟩

/-- Claim C1 (code bug): the code does not escape regex-significant
characters before substituting the wildcard, so the `.` in the pattern
`a.b:*` acts as a single-character wildcard and matches `axb:c`, although
`a.b:` is not literally a prefix of `axb:c`. -/
theorem hasPermissionPattern_dot_unescaped :
    hasPermissionPattern ["axb:c".toList] "a.b:*".toList = true ∧
    List.isPrefixOf "a.b:".toList "axb:c".toList = false := by
  decide

/-- A run of literal tokens consumes exactly that prefix of the string. -/
theorem rmatch_lits_append (cs : List Char) (ts : List RTok) (s : List Char) :
    rmatch (cs.map RTok.lit ++ ts) s = true ↔
      ∃ s₂, s = cs ++ s₂ ∧ rmatch ts s₂ = true := by
  induction cs generalizing s with
  | nil => simp
  | cons c cs ih =>
    cases s with
    | nil => simp [rmatch]
    | cons x xs =>
      constructor
      · intro h
        simp only [List.map_cons, List.cons_append, rmatch, Bool.and_eq_true,
          beq_iff_eq] at h
        obtain ⟨hx, hm⟩ := h
        obtain ⟨s₂, hxs, hm₂⟩ := (ih xs).mp hm
        exact ⟨s₂, by simp [hx, hxs], hm₂⟩
      · rintro ⟨s₂, heq, hm⟩
        injection heq with h1 h2
        simp only [List.map_cons, List.cons_append, rmatch, Bool.and_eq_true,
          beq_iff_eq]
        exact ⟨h1, (ih xs).mpr ⟨s₂, h2, hm⟩⟩

/-- A trailing `.*` matches exactly the strings free of line terminators. -/
theorem rmatch_anyStar_only (s : List Char) :
    rmatch [RTok.anyStar] s = true ↔
      s.all (fun c => !isLineTerminator c) = true := by
  simp only [rmatch, List.any_eq_true, List.mem_range, Bool.and_eq_true]
  constructor
  · rintro ⟨i, hi, htake, hdrop⟩
    have hnil : s.drop i = [] := by
      simpa [List.isEmpty_iff] using hdrop
    have hlen : s.length ≤ i := by
      have := List.drop_eq_nil_iff.mp hnil
      omega
    rwa [List.take_of_length_le hlen] at htake
  · intro h
    refine ⟨s.length, by omega, ?_, ?_⟩
    · rwa [List.take_length]
    · simp [rmatch]

/-- Claim C4 counterexample: `"users:\n"` starts with `"users:"`, yet
`hasPermissionPattern` rejects it, because the JS regex `.` produced from
the wildcard does not match the line terminator `\n`. -/
theorem hasPermissionPattern_newline_cx :
    hasPermissionPattern ["users:\n".toList] "users:*".toList = false ∧
    List.isPrefixOf "users:".toList "users:\n".toList = true := by
  decide

/-- Claim C4 amended: `hasPermissionPattern held "users:*"` is true iff
`held` contains a code of the form `"users:" ++ rest` where `rest` holds no
line-terminator characters (the JS `.` excludes them). -/
theorem hasPermissionPattern_users_star (held : List PermissionCode) :
    hasPermissionPattern held "users:*".toList = true ↔
      ∃ p ∈ held, ∃ rest, p = "users:".toList ++ rest ∧
        rest.all (fun c => !isLineTerminator c) = true := by
  have hmap : ("users:*".toList).map compileChar =
      ("users:".toList).map RTok.lit ++ [RTok.anyStar] := by decide
  have hstar : ("users:*".toList).contains '*' = true := by decide
  unfold hasPermissionPattern
  rw [hstar]
  simp only [if_true, List.any_eq_true, hmap, rmatch_lits_append,
    rmatch_anyStar_only]

/-- Claim C5: `hasAllPermissions` is the subset test, and is vacuously true
on an empty requirement list. -/
theorem hasAllPermissions_iff (held codes : List PermissionCode) :
    (hasAllPermissions held codes = true ↔ ∀ c ∈ codes, c ∈ held) ∧
    hasAllPermissions held [] = true := by
  constructor
  · simp [hasAllPermissions, List.all_eq_true]
  · rfl

/-- Claim C6: `hasAnyPermission` is the nonempty-intersection test, and is
false on an empty requirement list. -/
theorem hasAnyPermission_iff (held codes : List PermissionCode) :
    (hasAnyPermission held codes = true ↔ ∃ c ∈ codes, c ∈ held) ∧
    hasAnyPermission held [] = false := by
  constructor
  · simp [hasAnyPermission, List.any_eq_true]
  · rfl

/-- Claim C7: `hasRoleLevel` is the integer comparison `userLevel ≥
requiredLevel`, and in particular level 50 does not reach required level
60. -/
theorem hasRoleLevel_iff :
    (∀ userLevel requiredLevel : Int,
        hasRoleLevel userLevel requiredLevel = true ↔
          userLevel ≥ requiredLevel) ∧
    hasRoleLevel 50 60 = false := by
  constructor
  · intro u r
    simp [hasRoleLevel]
  · decide

/-- `List.contains` succeeds exactly on members. -/
theorem contains_true_iff_mem {l : List PermissionCode} {a : PermissionCode} :
    l.contains a = true ↔ a ∈ l := by
  simp

/-- Two Boolean subset checks give membership equivalence. -/
theorem mem_iff_of_all_contains {A B : List PermissionCode}
    (hAB : A.all (fun x => B.contains x) = true)
    (hBA : B.all (fun x => A.contains x) = true) :
    ∀ x, x ∈ A ↔ x ∈ B := by
  simp only [List.all_eq_true, contains_true_iff_mem] at hAB hBA
  exact fun x => ⟨fun hx => hAB x hx, fun hx => hBA x hx⟩

/-- `List.any` only depends on which elements are present. -/
theorem any_mem_congr {A B : List PermissionCode}
    (h : ∀ x, x ∈ A ↔ x ∈ B) (f : PermissionCode → Bool) :
    A.any f = B.any f := by
  have h1 : A.any f = true ↔ B.any f = true := by
    simp only [List.any_eq_true]
    exact ⟨fun ⟨x, hx, hf⟩ => ⟨x, (h x).mp hx, hf⟩,
           fun ⟨x, hx, hf⟩ => ⟨x, (h x).mpr hx, hf⟩⟩
  cases hA : A.any f <;> cases hB : B.any f <;> simp_all

/-- `List.contains` only depends on which elements are present. -/
theorem contains_mem_congr {A B : List PermissionCode}
    (h : ∀ x, x ∈ A ↔ x ∈ B) (q : PermissionCode) :
    A.contains q = B.contains q := by
  have h1 : A.contains q = true ↔ B.contains q = true := by
    simp only [contains_true_iff_mem]
    exact h q
  cases hA : A.contains q <;> cases hB : B.contains q <;> simp_all

/-- Pointwise-equal predicates give equal `List.any`. -/
theorem any_fun_congr (l : List PermissionCode) (f g : PermissionCode → Bool)
    (h : ∀ x, f x = g x) : l.any f = l.any g := by
  induction l with
  | nil => rfl
  | cons a l ih => simp [List.any_cons, h a, ih]

/-- Pointwise-equal predicates give equal `List.all`. -/
theorem all_fun_congr (l : List PermissionCode) (f g : PermissionCode → Bool)
    (h : ∀ x, f x = g x) : l.all f = l.all g := by
  induction l with
  | nil => rfl
  | cons a l ih => simp [List.all_cons, h a, ih]

/-- Claim C8: on two held lists with the same underlying set of codes
(checked by mutual Boolean inclusion), all four predicates agree for every
query. -/
theorem permission_predicates_set_semantics
    (A B : List PermissionCode) (q p : PermissionCode)
    (qs : List PermissionCode)
    (hAB : A.all (fun x => B.contains x) = true)
    (hBA : B.all (fun x => A.contains x) = true) :
    hasPermission A q = hasPermission B q ∧
    hasAnyPermission A qs = hasAnyPermission B qs ∧
    hasAllPermissions A qs = hasAllPermissions B qs ∧
    hasPermissionPattern A p = hasPermissionPattern B p := by
  have hmem := mem_iff_of_all_contains hAB hBA
  refine ⟨contains_mem_congr hmem q, ?_, ?_, ?_⟩
  · exact any_fun_congr qs _ _ (fun x => contains_mem_congr hmem x)
  · exact all_fun_congr qs _ _ (fun x => contains_mem_congr hmem x)
  · unfold hasPermissionPattern
    cases hc : p.contains '*' with
    | true => simp only [if_true, any_mem_congr hmem]
    | false => simp only [Bool.false_eq_true, if_false, contains_mem_congr hmem p]

/-- Witness for claim C8 at a concrete pair of set-equal lists that differ
in duplicates. -/
theorem permission_predicates_set_semantics_witness :
    (["users:create".toList, "users:create".toList].all
      (fun x => ["users:create".toList].contains x) = true) ∧
    (["users:create".toList].all
      (fun x => ["users:create".toList, "users:create".toList].contains x) = true) ∧
    hasPermissionPattern ["users:create".toList, "users:create".toList]
        "users:*".toList =
      hasPermissionPattern ["users:create".toList] "users:*".toList :=
  ⟨by decide, by decide,
   (permission_predicates_set_semantics
      ["users:create".toList, "users:create".toList] ["users:create".toList]
      "users:create".toList "users:*".toList ["users:create".toList]
      (by decide) (by decide)).2.2.2⟩

/-- Claim C10: enlarging the held list (Boolean inclusion of A in B) never
turns a granted check into a denial, for each of the four predicates. -/
theorem permission_predicates_monotone
    (A B : List PermissionCode) (q p : PermissionCode)
    (qs₁ qs₂ : List PermissionCode)
    (hAB : A.all (fun x => B.contains x) = true) :
    (hasPermission A q = true → hasPermission B q = true) ∧
    (hasAnyPermission A qs₁ = true → hasAnyPermission B qs₁ = true) ∧
    (hasAllPermissions A qs₂ = true → hasAllPermissions B qs₂ = true) ∧
    (hasPermissionPattern A p = true → hasPermissionPattern B p = true) := by
  have hsub : ∀ x, x ∈ A → x ∈ B := by
    simp only [List.all_eq_true, contains_true_iff_mem] at hAB
    exact hAB
  have hcont : ∀ x, A.contains x = true → B.contains x = true := by
    intro x hx
    simp only [contains_true_iff_mem] at hx ⊢
    exact hsub x hx
  refine ⟨hcont q, ?_, ?_, ?_⟩
  · intro h
    simp only [hasAnyPermission, List.any_eq_true] at h ⊢
    obtain ⟨c, hc, hin⟩ := h
    exact ⟨c, hc, hcont c hin⟩
  · intro h
    simp only [hasAllPermissions, List.all_eq_true] at h ⊢
    exact fun c hc => hcont c (h c hc)
  · unfold hasPermissionPattern
    cases hc : p.contains '*' with
    | true =>
      simp only [if_true, List.any_eq_true]
      rintro ⟨x, hx, hm⟩
      exact ⟨x, hsub x hx, hm⟩
    | false =>
      simp only [Bool.false_eq_true, if_false]
      exact hcont p

/-- Witness for claim C10 at a concrete pair of lists with A included in
B, where all four checks hold on A. -/
theorem permission_predicates_monotone_witness :
    hasPermission ["users:view".toList, "reports:view".toList]
      "users:view".toList = true ∧
    hasAnyPermission ["users:view".toList, "reports:view".toList]
      ["users:view".toList] = true ∧
    hasAllPermissions ["users:view".toList, "reports:view".toList]
      ["users:view".toList] = true ∧
    hasPermissionPattern ["users:view".toList, "reports:view".toList]
      "users:*".toList = true :=
  ⟨(permission_predicates_monotone ["users:view".toList]
      ["users:view".toList, "reports:view".toList] "users:view".toList
      "users:*".toList ["users:view".toList] ["users:view".toList]
      (by decide)).1 (by decide),
   (permission_predicates_monotone ["users:view".toList]
      ["users:view".toList, "reports:view".toList] "users:view".toList
      "users:*".toList ["users:view".toList] ["users:view".toList]
      (by decide)).2.1 (by decide),
   (permission_predicates_monotone ["users:view".toList]
      ["users:view".toList, "reports:view".toList] "users:view".toList
      "users:*".toList ["users:view".toList] ["users:view".toList]
      (by decide)).2.2.1 (by decide),
   (permission_predicates_monotone ["users:view".toList]
      ["users:view".toList, "reports:view".toList] "users:view".toList
      "users:*".toList ["users:view".toList] ["users:view".toList]
      (by decide)).2.2.2 (by decide)⟩

end CoreEntity
